import Mathlib

/-!
Verification of mqttfs (github.com/mburakov/mqttfs) against its
natural-language specification.

The C sources are shallowly embedded: machine integers become `Nat` with an
explicit `% 2 ^ w` wherever overflow or underflow matters, byte buffers become
`List Nat` (each entry read modulo 256, matching `uint8_t` memory), pointers
become `Nat` addresses, and fallible allocation is driven by an explicit
oracle `Nat → Bool` giving the outcome of each allocation attempt in program
order.  Each definition is translated from the named C function.
-/

namespace Mqttfs

/-! ## Bytes-buffer (src/utils.c)

`struct Buffer { void* data; size_t size; size_t alloc; }`.
The byte contents are irrelevant to the claims about allocation behaviour, so
the model keeps the two size fields plus the contents length; the `Bool`
returned alongside records whether the operation performed a fresh
allocation (`realloc`/`malloc` growing the backing store). -/

/-- Model of `struct Buffer`: logical size and backing allocation size. -/
structure CBuffer where
  size : Nat
  alloc : Nat
  deriving Repr, DecidableEq

/-- `BufferReserve` (src/utils.c:35-45): `alloc = buffer->size + size` (a
`size_t` sum, hence `% 2^64`); the backing store is reallocated only when
this exceeds the current allocation.  Returns the updated buffer and whether
a reallocation happened. -/
def BufferReserve (b : CBuffer) (size : Nat) : CBuffer × Bool :=
  let alloc := (b.size + size) % 2 ^ 64
  if alloc > b.alloc then ({ b with alloc := alloc }, true) else (b, false)

/-- `BufferAssign` (src/utils.c:47-58): a fresh `malloc` happens only when
`size > buffer->alloc`; otherwise the existing allocation is reused.  The
logical size becomes `size` either way.  Returns the updated buffer and
whether a fresh allocation happened. -/
def BufferAssign (b : CBuffer) (size : Nat) : CBuffer × Bool :=
  if size > b.alloc then ({ size := size, alloc := size }, true)
  else ({ b with size := size }, false)

/-- Buffer operations as performed by the callers: `reserve(n)`,
`assign(bytes)` (only the length matters here), and the commit idiom
`buffer->size += size` used after a successful reserve (src/fuse.c:78). -/
inductive BufOp where
  | reserve (n : Nat)
  | assign (n : Nat)
  | commit (n : Nat)
  deriving Repr, DecidableEq

def applyBufOp (b : CBuffer) : BufOp → CBuffer
  | .reserve n => (BufferReserve b n).1
  | .assign n => (BufferAssign b n).1
  | .commit n => { b with size := (b.size + n) % 2 ^ 64 }

def runBufOps (b : CBuffer) (ops : List BufOp) : CBuffer :=
  ops.foldl applyBufOp b

/-! ## READ numerics (src/fuse.c:352-367 `OnFuseRead`,
src/mqttfs.c:348-358 `MqttfsNodeRead`)

Both variants compute the reply byte count as
`MIN(read_in->size, handle->buffer->size - read_in->offset)` where the
subtraction is carried out on 64-bit unsigned values, and take the reply
data from `buffer->data + offset` without any clamping of `offset`. -/

/-- Number of bytes returned by a READ on a payload of length `len` (bytes)
at the given `offset` (`uint64_t`) with requested `size`: the literal
`MIN(size, len - offset)` with the `size_t` subtraction wrapping modulo
`2^64`.  Requires `len, offset, size` already reduced into their machine
ranges. -/
def OnFuseReadCount (len offset size : Nat) : Nat :=
  min size ((len + 2 ^ 64 - offset) % 2 ^ 64)

/-- The byte count the READ clamp law of the specification demands:
`max 0 (min size (len - min offset len))` (all values mathematical). -/
def specReadCount (len offset size : Nat) : Nat :=
  max 0 (min size (len - min offset len))

/-! ## POLL (src/fuse.c:490-517 `OnFusePoll`,
src/mqttfs.c:458-479 `MqttfsNodePoll`)

`struct MqttfsHandle` carries the `updated` flag and the stored kernel wake
token `poll_handle` (0 meaning "no token").  Event bits (`<poll.h>`):
`POLLIN = 0x1`, `POLLOUT = 0x4`; `FUSE_POLL_SCHEDULE_NOTIFY = 1 << 0`. -/

/-- Model of `struct MqttfsHandle` (src/mqttfs.h:29-35): the intrusive list
links are represented by the handle's position in a `List`, and the buffer
back-pointer is dropped (claims never consult it through the handle). -/
structure MqttfsHandle where
  updated : Bool
  pollHandle : Nat
  deriving Repr, DecidableEq

/-- `OnFusePoll` body: `revents = events & POLLOUT` (bit 2); if
`events & POLLIN` (bit 0) then: with `FUSE_POLL_SCHEDULE_NOTIFY` store `kh`
into `poll_handle`; if `updated` then clear it and set `POLLIN` in
`revents`.  Returns the updated handle and `revents`. -/
def OnFusePoll (h : MqttfsHandle) (kh : Nat) (flags events : Nat) :
    MqttfsHandle × Nat :=
  let revents := if events.testBit 2 then 4 else 0
  if events.testBit 0 then
    let h := if flags.testBit 0 then { h with pollHandle := kh } else h
    if h.updated then ({ h with updated := false }, revents + 1)
    else (h, revents)
  else (h, revents)

/-! ## Remaining-length varint

Encoder: `EncodeLength` (src/mqtt_impl.c:35-48).
Decoder: `ReadRemainingLength` (src/mqtt_parser.c:31-40), which reads at
most four bytes through `ReadByte` (longjmp `ReadMore` on an exhausted
buffer, `Error` when the fourth byte still has the continuation bit). -/

/-- The digit loop of `EncodeLength`: `digits[i] = length & 0x7f`
(`= length % 128`); `length >>= 7` (`= length / 128`); the continuation bit
`0x80` (`+ 128`) is set on every digit except the last. -/
def encodeLengthLoop (length : Nat) : List Nat :=
  if h : length / 128 = 0 then [length % 128]
  else (length % 128 + 128) :: encodeLengthLoop (length / 128)
  termination_by length
  decreasing_by exact Nat.div_lt_self (Nat.pos_of_ne_zero (by omega)) (by omega)

/-- `EncodeLength` (src/mqtt_impl.c:35-48): `none` for lengths above
268435455 (the C returns digit count 0), otherwise the base-128 digits,
least significant first. -/
def EncodeLength (length : Nat) : Option (List Nat) :=
  if length > 268435455 then none else some (encodeLengthLoop length)

/-- Result of `ReadRemainingLength`: the decoded value together with the
number of varint bytes consumed, or the `ReadMore`/`Error` longjmp exits. -/
inductive VarintResult where
  | ok (value consumed : Nat)
  | readMore
  | error
  deriving Repr, DecidableEq

/-- The loop of `ReadRemainingLength` (src/mqtt_parser.c:31-40), starting at
iteration `counter` with accumulator `acc`.  Each byte is a `uint8_t`
(`% 256`); `result |= (byte & 0x7f) << (7 * counter)` adds the digit
`byte % 128` at bit position `7 * counter` (the accumulator has no bits
there yet, so the bitwise-or is addition); `~byte & 0x80` exits the loop
when the byte is below 128.  After four continuation bytes the parser
longjmps `Error`; an exhausted buffer longjmps `ReadMore`. -/
def readRemainingLength : List Nat → Nat → Nat → VarintResult
  | [], counter, _ => if 4 ≤ counter then .error else .readMore
  | byte :: rest, counter, acc =>
    if 4 ≤ counter then .error
    else
      let b := byte % 256
      let acc := acc + b % 128 * 2 ^ (7 * counter)
      if b < 128 then .ok acc (counter + 1)
      else readRemainingLength rest (counter + 1) acc

/-- `ReadRemainingLength` applied to a fresh buffer position. -/
def ReadRemainingLength (buffer : List Nat) : VarintResult :=
  readRemainingLength buffer 0 0

/-! ## Ingress parser `MqttParseMessage` (src/mqtt_parser.c:42-73)

The model takes the bytes from the current cursor to the end of the ingress
buffer and reports how far the cursor moves.  On `ReadMore` and `Error` the
C function leaves `*buffer`/`*size` untouched (it works on copies), so those
constructors carry no cursor; on `Success`/`Skipped` the cursor advances by
`consumed` bytes.  Topic and payload are reported as offsets/lengths into
the buffer, exactly as the C reports pointers into it; `payload_len` is the
`size_t` expression `remaining_length - sizeof(uint16_t) - *topic_len`,
which wraps modulo `2^64`. -/

inductive ParseResult where
  | success (consumed topicOff topicLen payloadOff payloadLen : Nat)
  | skipped (consumed : Nat)
  | readMore
  | error
  deriving Repr, DecidableEq

/-- `MqttParseMessage` (src/mqtt_parser.c:42-73).  Reads the fixed byte,
then the remaining-length varint, then:
`remaining_length > size_copy` → `ReadMore`;
packet type nibble `≠ 0x3` → `Skipped` past the message;
`topic_len = (buffer_copy[0] << 8 | buffer_copy[1]) & 0xffff` (two
`uint8_t` reads), `topic_len > remaining_length` → `Error`;
otherwise `Success` with the topic at two bytes past the body start and the
payload after the topic.  `(packet_type & 0xf0) != 0x30` is tested as
`packet_type / 16 ≠ 3` on the byte value. -/
def MqttParseMessage (buffer : List Nat) : ParseResult :=
  match buffer with
  | [] => .readMore
  | packetByte :: rest =>
    let packetType := packetByte % 256
    match ReadRemainingLength rest with
    | .readMore => .readMore
    | .error => .error
    | .ok remainingLength varintLen =>
      let headerLen := 1 + varintLen
      let sizeCopy := buffer.length - headerLen
      if remainingLength > sizeCopy then .readMore
      else if packetType / 16 ≠ 3 then .skipped (headerLen + remainingLength)
      else
        let b0 := buffer.getD headerLen 0 % 256
        let b1 := buffer.getD (headerLen + 1) 0 % 256
        let topicLen := (b0 * 256 + b1) % 65536
        if topicLen > remainingLength then .error
        else
          .success (headerLen + remainingLength) (headerLen + 2) topicLen
            (headerLen + 2 + topicLen)
            ((remainingLength + 2 ^ 64 - (2 + topicLen)) % 2 ^ 64)

/-! ## Egress publish encoder `SendPublishMessage` (src/mqtt_impl.c:153-172)

The wire image of an outgoing publish: fixed byte `0x30`, the
remaining-length varint of `sizeof(uint16_t) + topic_size + payload_size`,
the big-endian `uint16_t` topic length, the topic bytes, the payload bytes.
`none` when `EncodeLength` rejects the length. -/
def SendPublishMessage (topic payload : List Nat) : Option (List Nat) :=
  match EncodeLength (2 + topic.length + payload.length) with
  | none => none
  | some digits =>
    some (0x30 :: digits ++
      [topic.length / 256 % 256, topic.length % 256] ++ topic ++ payload)

/-! ## Ingress driver

The ingress loop of the broker worker (src/mqtt.c:215-237) accumulates the
socket bytes in a buffer and repeatedly feeds `MqttParseMessage`, invoking
the publish callback on every `Success`, continuing on `Skipped`, and
keeping the unconsumed tail for the next read on `ReadMore`.  The driver is
modelled on the parser above; the fuel argument bounds the loop (each
`Success`/`Skipped` consumes at least one byte, so `buf.length` suffices). -/

/-- One publish of the well-formed stream fed to the ingress. -/
structure PubMessage where
  topic : List Nat
  payload : List Nat
  deriving Repr, DecidableEq

/-- Wire image of a sequence of publishes, each encoded by
`SendPublishMessage`; `none` if any of them is rejected. -/
def encodeStream : List PubMessage → Option (List Nat)
  | [] => some []
  | m :: ms =>
    match SendPublishMessage m.topic m.payload, encodeStream ms with
    | some e, some s => some (e ++ s)
    | _, _ => none

/-- The parse loop: extract messages until the parser asks for more bytes
(or errors), returning the `(topic, payload)` callback arguments in order
together with the unconsumed tail. -/
def drainAll : Nat → List Nat → List (List Nat × List Nat) × List Nat
  | 0, buf => ([], buf)
  | fuel + 1, buf =>
    match MqttParseMessage buf with
    | .success consumed tOff tLen pOff pLen =>
      let topic := (buf.drop tOff).take tLen
      let payload := (buf.drop pOff).take pLen
      let (msgs, leftover) := drainAll fuel (buf.drop consumed)
      ((topic, payload) :: msgs, leftover)
    | .skipped consumed => drainAll fuel (buf.drop consumed)
    | .readMore => ([], buf)
    | .error => ([], buf)

/-- Feed the ingress one chunk at a time: each arriving chunk is appended
to the leftover bytes and the parse loop runs; the collected callbacks of
all chunks are returned in order. -/
def feedChunks : List (List Nat) → List Nat → List (List Nat × List Nat)
  | [], _ => []
  | c :: cs, leftover =>
    let buf := leftover ++ c
    let (msgs, leftover') := drainAll buf.length buf
    msgs ++ feedChunks cs leftover'

/-! ## Namespace tree (src/mqttfs.c, src/fuse.c)

`struct MqttfsNode` (src/mqttfs.h:37-43).  The `tsearch` binary tree of
children is modelled as an association list from segment name to child
(iteration order is irrelevant to these claims; `tsearch` inserts a fresh
key, `tdelete` removes it, and the node pointer stored in the slot is
updated in place).  Pointers (`char* name`, payload bytes) are inlined as
lists; allocation failure of `tsearch`, `calloc`/`strdup` in `CreateNode`
and `malloc` of the payload copy is driven by the oracle, one consultation
per allocation in program order, threaded as an index into the oracle. -/

inductive MqttfsNode where
  | mk (name : List Nat) (presentAsDir : Bool) (buffer : List Nat)
      (handles : List MqttfsHandle) (children : List (List Nat × MqttfsNode))

def MqttfsNode.name : MqttfsNode → List Nat
  | .mk n _ _ _ _ => n

def MqttfsNode.presentAsDir : MqttfsNode → Bool
  | .mk _ d _ _ _ => d

def MqttfsNode.buffer : MqttfsNode → List Nat
  | .mk _ _ b _ _ => b

def MqttfsNode.handles : MqttfsNode → List MqttfsHandle
  | .mk _ _ _ h _ => h

def MqttfsNode.children : MqttfsNode → List (List Nat × MqttfsNode)
  | .mk _ _ _ _ c => c

def MqttfsNode.withBuffer : MqttfsNode → List Nat → MqttfsNode
  | .mk n d _ h c, b => .mk n d b h c

def MqttfsNode.withHandles : MqttfsNode → List MqttfsHandle → MqttfsNode
  | .mk n d b _ c, h => .mk n d b h c

def MqttfsNode.withChildren :
    MqttfsNode → List (List Nat × MqttfsNode) → MqttfsNode
  | .mk n d b h _, c => .mk n d b h c

/-- `IsDirectory` (src/mqttfs.c:69-71): `present_as_dir || children`. -/
def IsDirectory (node : MqttfsNode) : Bool :=
  node.presentAsDir || !node.children.isEmpty

/-- `tfind` on the children map. -/
def lookupChild : List (List Nat × MqttfsNode) → List Nat → Option MqttfsNode
  | [], _ => none
  | (k, v) :: rest, name => if k = name then some v else lookupChild rest name

/-- In-place update of the node stored in an existing `tsearch` slot. -/
def replaceChild :
    List (List Nat × MqttfsNode) → List Nat → MqttfsNode →
      List (List Nat × MqttfsNode)
  | [], _, _ => []
  | (k, v) :: rest, name, w =>
    if k = name then (k, w) :: rest else (k, v) :: replaceChild rest name w

/-- `tdelete` of a key. -/
def removeChild :
    List (List Nat × MqttfsNode) → List Nat → List (List Nat × MqttfsNode)
  | [], _ => []
  | (k, v) :: rest, name =>
    if k = name then rest else (k, v) :: removeChild rest name

/-- `CreateNode` (src/mqttfs.c:40-54): `calloc` zeroes every field. -/
def CreateNode (name : List Nat) : MqttfsNode :=
  .mk name false [] [] []

/-- The `memchr(topic, '/', topic_size)` split (src/mqttfs.c:213-217):
segment before the first `/` (byte 47) and, when a separator exists, the
remainder after it. -/
def splitSeg : List Nat → List Nat × Option (List Nat)
  | [] => ([], none)
  | c :: rest =>
    if c = 47 then ([], some rest)
    else
      let (n, r) := splitSeg rest
      (c :: n, r)

theorem splitSeg_some_length :
    ∀ (t r : List Nat), (splitSeg t).2 = some r → r.length < t.length := by
  intro t
  induction t with
  | nil => intro r h; simp [splitSeg] at h
  | cons c rest ih =>
    intro r h
    simp only [splitSeg] at h
    split at h
    · simp only at h
      injection h with h
      subst h
      simp
    · simp only at h
      have := ih r h
      simp
      omega

/-- `RecurseStore` (src/mqttfs.c:196-247; src/fuse.c:160-203 is the same
algorithm with `BufferAssign` in place of the explicit payload `malloc`).
Returns the C result as a flag (`node` pointer vs `NULL`), the tree after
the call (the C mutates in place), and the next allocation index.

Leaf (`!topic_size`): `malloc` a payload copy (one oracle consultation;
failure leaves the node untouched), then replace `node->buffer`.

Otherwise: split off the leading segment; `tfind`-or-insert via `tsearch`.
If the name exists, recurse into the stored child and store the updated
child back in its slot — on a failed recursion nothing is rolled back here
because `child_created` is false.  If the name is fresh, `tsearch`
allocates a slot (oracle; on failure return `NULL` with the map unchanged),
`CreateNode` allocates the child (oracle; on failure `tdelete` removes the
just-inserted slot again), the slot is pointed at the child, and the call
recurses; on a failed recursion with `child_created` the slot is
`tdelete`d and the child destroyed. -/
def RecurseStore (oracle : Nat → Bool) (k : Nat) (node : MqttfsNode)
    (topic payload : List Nat) : Bool × MqttfsNode × Nat :=
  if h : topic.isEmpty then
    if oracle k then (true, node.withBuffer payload, k + 1)
    else (false, node, k + 1)
  else
    let name := (splitSeg topic).1
    let rest := match (splitSeg topic).2 with
      | some r => r
      | none => []
    match lookupChild node.children name with
    | some child =>
      let r := RecurseStore oracle k child rest payload
      (r.1, node.withChildren (replaceChild node.children name r.2.1), r.2.2)
    | none =>
      if oracle k then
        if oracle (k + 1) then
          let child := CreateNode name
          let r := RecurseStore oracle (k + 2) child rest payload
          if r.1 then
            (true, node.withChildren (node.children ++ [(name, r.2.1)]), r.2.2)
          else
            (false, node.withChildren
              (removeChild (node.children ++ [(name, r.2.1)]) name), r.2.2)
        else
          (false, node.withChildren
            (removeChild (node.children ++ [(name, CreateNode name)]) name),
            k + 2)
      else (false, node, k + 1)
  termination_by topic.length
  decreasing_by
    all_goals
      cases hs : (splitSeg topic).2 with
      | none =>
        simp [hs]
        cases topic with
        | nil => simp at h
        | cons c t => simp
      | some r =>
        simp [hs]
        exact splitSeg_some_length topic r hs

/-- Path lookup along the same segment split (the `Locate` observer). -/
def findNode (node : MqttfsNode) (topic : List Nat) : Option MqttfsNode :=
  if topic.isEmpty then some node
  else
    let name := (splitSeg topic).1
    let rest := match (splitSeg topic).2 with
      | some r => r
      | none => []
    match lookupChild node.children name with
    | some child => findNode child rest
    | none => none
  termination_by topic.length
  decreasing_by
    cases hs : (splitSeg topic).2 with
    | none =>
      simp [hs]
      cases topic with
      | nil => simp_all
      | cons c t => simp
    | some r =>
      simp [hs]
      exact splitSeg_some_length topic r hs

/-- The notification loop of `MqttfsStore` (src/mqttfs.c:500-509) and
`FuseContextWrite` (src/fuse.c:586-595): handles with `poll_handle == 0`
are skipped entirely; each other handle gets `updated = 1` and one
`FUSE_NOTIFY_POLL` message carrying its `poll_handle` (which is not
cleared).  Returns the updated handle list and the emitted tokens in
order. -/
def NotifyHandles : List MqttfsHandle → List MqttfsHandle × List Nat
  | [] => ([], [])
  | h :: rest =>
    let r := NotifyHandles rest
    if h.pollHandle = 0 then (h :: r.1, r.2)
    else ({ h with updated := true } :: r.1, h.pollHandle :: r.2)

/-- Apply the notification loop to the node the store returned (the C holds
a pointer into the tree; the model updates along the path). -/
def notifyAtPath (node : MqttfsNode) (topic : List Nat) :
    MqttfsNode × List Nat :=
  if topic.isEmpty then
    let r := NotifyHandles node.handles
    (node.withHandles r.1, r.2)
  else
    let name := (splitSeg topic).1
    let rest := match (splitSeg topic).2 with
      | some r => r
      | none => []
    match lookupChild node.children name with
    | some child =>
      let r := notifyAtPath child rest
      (node.withChildren (replaceChild node.children name r.1), r.2)
    | none => (node, [])
  termination_by topic.length
  decreasing_by
    cases hs : (splitSeg topic).2 with
    | none =>
      simp [hs]
      cases topic with
      | nil => simp_all
      | cons c t => simp
    | some r =>
      simp [hs]
      exact splitSeg_some_length topic r hs

/-- `MqttfsStore` (src/mqttfs.c:485-510): store the publish into the tree
(`RecurseStore`); on failure log and return (no notifications); on success
run the notification loop over the stored node's handle list.  Returns the
tree after the call, the emitted wake tokens in order, and the next
allocation index. -/
def MqttfsStore (oracle : Nat → Bool) (k : Nat) (root : MqttfsNode)
    (topic payload : List Nat) : MqttfsNode × List Nat × Nat :=
  let r := RecurseStore oracle k root topic payload
  if r.1 then
    let n := notifyAtPath r.2.1 topic
    (n.1, n.2, r.2.2)
  else (r.2.1, [], r.2.2)

/-! ## Outbound holdback queue drain (src/mqtt.c:76-112 `DrainMessages`)

`struct MqttMessage` (src/mqtt.c:47-52) holds `int64_t timestamp`,
`struct Str topic` (src/str.h:29-33: `uint8_t short_size`, `uint16_t
long_size`, `const char* data`), `void* payload`, `size_t payload_len`.
The queue lives in one heap array; `DrainMessages` walks it element-wise
but compacts it with a byte-granular `memmove`, so the model keeps the
array as raw bytes in the x86-64 layout (40 bytes per element; pointers as
integer addresses; struct padding modelled as zero bytes — the divergence
below only involves named fields). -/

structure CMqttMessage where
  timestamp : Int
  topicShortSize : Nat
  topicLongSize : Nat
  topicData : Nat
  payload : Nat
  payloadLen : Nat
  deriving Repr, DecidableEq

/-- `w`-byte little-endian image of a value. -/
def leBytes : Nat → Nat → List Nat
  | 0, _ => []
  | w + 1, v => v % 256 :: leBytes w (v / 256)

/-- Little-endian read of a byte list. -/
def leDecode : List Nat → Nat
  | [] => 0
  | b :: rest => b % 256 + 256 * leDecode rest

/-- In-memory image of one `struct MqttMessage` (40 bytes): `timestamp` at
offset 0 (two's complement), `topic.short_size` at 8, padding,
`topic.long_size` at 10, padding, `topic.data` at 16, `payload` at 24,
`payload_len` at 32. -/
def encodeMsg (m : CMqttMessage) : List Nat :=
  leBytes 8 (m.timestamp % 2 ^ 64).toNat ++
  [m.topicShortSize % 256, 0] ++ leBytes 2 m.topicLongSize ++ [0, 0, 0, 0] ++
  leBytes 8 m.topicData ++ leBytes 8 m.payload ++ leBytes 8 m.payloadLen

def encodeQueue (q : List CMqttMessage) : List Nat := (q.map encodeMsg).join

/-- `messages[i].timestamp`, read back from the array bytes. -/
def decodeTs (bytes : List Nat) (i : Nat) : Int :=
  let v := leDecode ((bytes.drop (i * 40)).take 8)
  if v < 2 ^ 63 then (v : Int) else (v : Int) - 2 ^ 64

/-- `messages[i]`, read back from the array bytes. -/
def decodeMsg (bytes : List Nat) (i : Nat) : CMqttMessage :=
  let b := (bytes.drop (i * 40)).take 40
  { timestamp :=
      (let v := leDecode (b.take 8)
       if v < 2 ^ 63 then (v : Int) else (v : Int) - 2 ^ 64),
    topicShortSize := leDecode ((b.drop 8).take 1),
    topicLongSize := leDecode ((b.drop 10).take 2),
    topicData := leDecode ((b.drop 16).take 8),
    payload := leDecode ((b.drop 24).take 8),
    payloadLen := leDecode ((b.drop 32).take 8) }

/-- The send loop bound (src/mqtt.c:82-93): starting from `counter`,
advance while `counter < messages_size` and
`messages[counter].timestamp ≤ now` (each such element is sent as a
PUBLISH); stop at the first element whose timestamp exceeds `now`.  The
fuel is the number of elements still ahead. -/
def drainCounterAux (bytes : List Nat) (now : Int) : Nat → Nat → Nat
  | counter, 0 => counter
  | counter, rem + 1 =>
    if decodeTs bytes counter ≤ now then
      drainCounterAux bytes now (counter + 1) rem
    else counter

/-- `DrainMessages` (src/mqtt.c:76-112), successful-send path: messages
`0 ≤ i < counter` are sent as PUBLISH frames in order and freed; if any
were sent the array is compacted with
`memmove(messages, messages + counter, messages_size - counter)` — a byte
count of `messages_size - counter`, **not**
`(messages_size - counter) * sizeof(struct MqttMessage)` (contrast
`MqttCancel`, src/mqtt.c:415-416, which multiplies by the element size) —
and `messages_size` drops by `counter`.  Returns the sent messages (in
order), the array bytes after the call, and the new `messages_size`. -/
def DrainMessages (bytes : List Nat) (size : Nat) (now : Int) :
    List CMqttMessage × List Nat × Nat :=
  let counter := drainCounterAux bytes now 0 size
  let sent := (List.range counter).map (decodeMsg bytes)
  if counter ≠ 0 then
    let bytes' := if counter ≠ size then
        (bytes.drop (counter * 40)).take (size - counter) ++
          bytes.drop (size - counter)
      else bytes
    (sent, bytes', size - counter)
  else (sent, bytes, size)

/-! # Theorems -/

/-! ## Holdback queue drain (claim C3) -/

/-- C3: at the failing input — a two-message queue whose first message
(timestamp 261) is due at `now = 300` and whose second (timestamp 1000) is
not — the drain sends exactly the due leading prefix in order, as the
claim states, but the queue afterwards is **not** the undrained remainder:
the `memmove` moves `messages_size - counter = 1` byte instead of
`1 * sizeof(struct MqttMessage) = 40`, so the surviving slot still holds
the freed first message's bytes with only its first byte overwritten
(decoding to timestamp 488 and the first message's dangling topic/payload
pointers), not the second message. -/
theorem drain_memmove_corruption :
    (DrainMessages (encodeQueue
        [⟨261, 0, 3, 1000, 2000, 1⟩, ⟨1000, 0, 4, 3000, 4000, 2⟩]) 2 300).1 =
      [⟨261, 0, 3, 1000, 2000, 1⟩] ∧
    (DrainMessages (encodeQueue
        [⟨261, 0, 3, 1000, 2000, 1⟩, ⟨1000, 0, 4, 3000, 4000, 2⟩]) 2
        300).2.2 = 1 ∧
    decodeMsg (DrainMessages (encodeQueue
        [⟨261, 0, 3, 1000, 2000, 1⟩, ⟨1000, 0, 4, 3000, 4000, 2⟩]) 2
        300).2.1 0 = ⟨488, 0, 3, 1000, 2000, 1⟩ ∧
    decodeMsg (DrainMessages (encodeQueue
        [⟨261, 0, 3, 1000, 2000, 1⟩, ⟨1000, 0, 4, 3000, 4000, 2⟩]) 2
        300).2.1 0 ≠ ⟨1000, 0, 4, 3000, 4000, 2⟩ ∧
    decodeMsg (encodeQueue [⟨1000, 0, 4, 3000, 4000, 2⟩]) 0 =
      ⟨1000, 0, 4, 3000, 4000, 2⟩ := by
  refine ⟨by decide, by decide, by decide, by decide, by decide⟩

/-! ## Bytes-buffer allocation (claim C10) -/

theorem applyBufOp_alloc_le (b : CBuffer) (op : BufOp) :
    b.alloc ≤ (applyBufOp b op).alloc := by
  cases op with
  | reserve n =>
    simp only [applyBufOp, BufferReserve]
    split <;> simp <;> omega
  | assign n =>
    simp only [applyBufOp, BufferAssign]
    split <;> simp <;> omega
  | commit n => simp [applyBufOp]

theorem runBufOps_alloc_le (b : CBuffer) (ops : List BufOp) :
    b.alloc ≤ (runBufOps b ops).alloc := by
  induction ops generalizing b with
  | nil => simp [runBufOps]
  | cons op ops ih =>
    exact le_trans (applyBufOp_alloc_le b op) (ih (applyBufOp b op))

/-- C10: across any sequence of buffer operations the backing allocation
never decreases; `BufferReserve` reallocates exactly when the current
allocation cannot hold `size + n` (computed as a `size_t`), and
`BufferAssign` allocates exactly when the content exceeds the current
allocation — in particular content smaller than the capacity reuses the
existing allocation, and the capacity after an assign is the maximum of the
old capacity and the content size. -/
theorem buffer_alloc_monotone_reuse :
    (∀ b ops, b.alloc ≤ (runBufOps b ops).alloc) ∧
    (∀ b n, (BufferReserve b n).2 = decide (b.alloc < (b.size + n) % 2 ^ 64) ∧
      (BufferReserve b n).1.size = b.size) ∧
    (∀ b n, (BufferAssign b n).2 = decide (b.alloc < n) ∧
      (BufferAssign b n).1.alloc = max b.alloc n ∧
      (BufferAssign b n).1.size = n) := by
  refine ⟨runBufOps_alloc_le, fun b n => ?_, fun b n => ?_⟩
  · simp only [BufferReserve]
    split <;> rename_i h <;> simp_all <;> omega
  · simp only [BufferAssign]
    split <;> rename_i h <;> simp_all <;> omega

/-! ## READ clamping (claim C1) -/

/-- C1: the code does not clamp `offset` to `[0, len]`.  At payload length
0, `offset = 1`, `size = 4` the `size_t` subtraction `len - offset` wraps to
`2^64 - 1` and the reply length is `size = 4` (served from past the end of
the payload allocation), while the specified clamp law demands 0 bytes.
For any in-range offset (`offset ≤ len`, with `len` a valid `size_t`) the
code agrees with the clamp law. -/
theorem read_count_underflow :
    OnFuseReadCount 0 1 4 = 4 ∧ specReadCount 0 1 4 = 0 ∧
    (∀ len offset size, offset ≤ len → len < 2 ^ 64 →
      OnFuseReadCount len offset size = specReadCount len offset size) := by
  refine ⟨by decide, by decide, fun len offset size h hlen => ?_⟩
  have h1 : len + 2 ^ 64 - offset = 2 ^ 64 + (len - offset) := by omega
  have h2 : (2 ^ 64 + (len - offset)) % 2 ^ 64 = len - offset := by
    rw [Nat.add_mod_left]
    exact Nat.mod_eq_of_lt (by omega)
  rw [OnFuseReadCount, specReadCount, h1, h2, Nat.min_eq_left h,
    Nat.max_eq_right (Nat.zero_le _)]

/-- C1 witness: the in-range agreement instantiated at `len = 5`,
`offset = 2`, `size = 10`. -/
theorem read_count_underflow_witness :
    OnFuseReadCount 5 2 10 = specReadCount 5 2 10 :=
  read_count_underflow.2.2 5 2 10 (by decide) (by decide)

/-! ## POLL revents (claim C9) -/

/-- C9 counterexample: a POLL whose requested events are exactly `POLLIN`
(`events = 0x1`) on a handle with a clear `updated` flag returns
`revents = 0`: the `POLLOUT` bit is absent, so `revents` does not always
include `POLLOUT` — it is included only when requested. -/
theorem poll_pollout_not_unconditional :
    ((OnFusePoll ⟨false, 0⟩ 0 0 1).2).testBit 2 = false := by decide

/-- C9 (amended): `revents` contains `POLLOUT` exactly when the requested
events contain `POLLOUT`; `revents` contains `POLLIN` exactly when the
requested events contain `POLLIN` and the handle's `updated` flag is set;
and the `updated` flag after the POLL is clear exactly when `POLLIN` was
requested (so an `updated` flag that is reported is also cleared). -/
theorem poll_revents_law (h : MqttfsHandle) (kh flags events : Nat) :
    ((OnFusePoll h kh flags events).2).testBit 2 = events.testBit 2 ∧
    ((OnFusePoll h kh flags events).2).testBit 0 =
      (events.testBit 0 && h.updated) ∧
    (OnFusePoll h kh flags events).1.updated =
      (h.updated && !events.testBit 0) := by
  unfold OnFusePoll
  by_cases h2 : events.testBit 2 <;> by_cases h0 : events.testBit 0 <;>
    by_cases hf : flags.testBit 0 <;> by_cases hu : h.updated <;>
    simp [h2, h0, hf, hu] <;> decide

/-! ## Remaining-length varint round-trip (claim C8) -/

theorem encodeLengthLoop_length_le :
    ∀ (k n : Nat), n < 128 ^ (k + 1) → (encodeLengthLoop n).length ≤ k + 1 := by
  intro k
  induction k with
  | zero =>
    intro n hn
    rw [encodeLengthLoop]
    have : n / 128 = 0 := Nat.div_eq_of_lt (by simpa using hn)
    simp [this]
  | succ k ih =>
    intro n hn
    rw [encodeLengthLoop]
    split
    · simp
    · rename_i hdiv
      have hlt : n / 128 < 128 ^ (k + 1) := by
        rw [Nat.div_lt_iff_lt_mul (by norm_num)]
        calc n < 128 ^ (k + 1 + 1) := hn
        _ = 128 ^ (k + 1) * 128 := by ring
      simpa using ih (n / 128) hlt

theorem readRemainingLength_encodeLengthLoop :
    ∀ (n c acc : Nat) (rest : List Nat),
      c + (encodeLengthLoop n).length ≤ 4 →
      readRemainingLength (encodeLengthLoop n ++ rest) c acc =
        .ok (acc + n * 2 ^ (7 * c)) (c + (encodeLengthLoop n).length) := by
  intro n
  induction n using Nat.strong_induction_on with
  | _ n ih =>
    intro c acc rest hlen
    rw [encodeLengthLoop] at hlen ⊢
    by_cases hdiv : n / 128 = 0
    · have hn : n < 128 := (Nat.div_eq_zero_iff (by norm_num)).mp hdiv
      rw [dif_pos hdiv] at hlen ⊢
      have hc : ¬ 4 ≤ c := by simp at hlen; omega
      simp only [List.singleton_append, readRemainingLength, if_neg hc]
      have h256 : n % 128 % 256 = n % 128 :=
        Nat.mod_eq_of_lt (lt_trans (Nat.mod_lt n (by norm_num)) (by norm_num))
      have h128 : n % 128 % 128 = n % 128 :=
        Nat.mod_eq_of_lt (Nat.mod_lt n (by norm_num))
      simp only [h256, h128, if_pos (Nat.mod_lt n (by norm_num) : n % 128 < 128)]
      rw [Nat.mod_eq_of_lt hn]
      simp
    · rw [dif_neg hdiv] at hlen ⊢
      have hc : ¬ 4 ≤ c := by simp at hlen; omega
      simp only [List.cons_append, readRemainingLength, if_neg hc]
      have hd : (n % 128 + 128) % 256 = n % 128 + 128 :=
        Nat.mod_eq_of_lt (by omega)
      have hnotlt : ¬ (n % 128 + 128) < 128 := by omega
      simp only [hd, if_neg hnotlt]
      have hmod : (n % 128 + 128) % 128 = n % 128 := by omega
      rw [hmod]
      have hpos : 0 < n := Nat.pos_of_ne_zero (fun h0 => hdiv (by simp [h0]))
      have hrec := ih (n / 128) (Nat.div_lt_self hpos (by norm_num)) (c + 1)
        (acc + n % 128 * 2 ^ (7 * c)) rest (by simp at hlen ⊢; omega)
      rw [List.append_eq, hrec]
      simp only [VarintResult.ok.injEq, List.length_cons]
      constructor
      · have hpow : 2 ^ (7 * (c + 1)) = 2 ^ (7 * c) * 128 := by
          rw [Nat.mul_succ, pow_add]
          norm_num
        rw [hpow]
        have hsplit : 128 * (n / 128) + n % 128 = n := Nat.div_add_mod n 128
        calc acc + n % 128 * 2 ^ (7 * c) + n / 128 * (2 ^ (7 * c) * 128)
            = acc + (128 * (n / 128) + n % 128) * 2 ^ (7 * c) := by ring
        _ = acc + n * 2 ^ (7 * c) := by rw [hsplit]
      · omega

/-- C8: for every `n ≤ 268435455` the encoder produces digits whose
decoding (in front of any trailing bytes) yields exactly `n`, consuming
exactly the digits; every larger value is rejected by the encoder; and the
decoder reports a protocol error whenever the first four bytes all carry
the continuation bit. -/
theorem varint_roundtrip :
    (∀ (n : Nat) (rest : List Nat), n ≤ 268435455 →
      ∃ ds, EncodeLength n = some ds ∧
        ReadRemainingLength (ds ++ rest) = .ok n ds.length) ∧
    (∀ n, 268435455 < n → EncodeLength n = none) ∧
    (∀ (b0 b1 b2 b3 : Nat) (rest : List Nat),
      128 ≤ b0 % 256 → 128 ≤ b1 % 256 → 128 ≤ b2 % 256 → 128 ≤ b3 % 256 →
      ReadRemainingLength (b0 :: b1 :: b2 :: b3 :: rest) = .error) := by
  refine ⟨fun n rest hn => ?_, fun n hn => ?_, fun b0 b1 b2 b3 rest h0 h1 h2 h3 => ?_⟩
  · refine ⟨encodeLengthLoop n, ?_, ?_⟩
    · simp [EncodeLength]
      omega
    · have hlen : (encodeLengthLoop n).length ≤ 4 := by
        have : n < 128 ^ (3 + 1) := by norm_num; omega
        simpa using encodeLengthLoop_length_le 3 n this
      have := readRemainingLength_encodeLengthLoop n 0 0 rest (by omega)
      simpa [ReadRemainingLength] using this
  · simp [EncodeLength]
    omega
  · simp only [ReadRemainingLength, readRemainingLength]
    norm_num
    simp only [if_neg (by omega : ¬ b0 % 256 < 128),
      if_neg (by omega : ¬ b1 % 256 < 128),
      if_neg (by omega : ¬ b2 % 256 < 128),
      if_neg (by omega : ¬ b3 % 256 < 128)]
    cases rest <;> simp [readRemainingLength]

/-! ## Ingress parser (claims C6, C7) -/

theorem readRemainingLength_ok_bounds :
    ∀ (l : List Nat) (c a v k : Nat),
      readRemainingLength l c a = .ok v k → c < k ∧ k - c ≤ l.length := by
  intro l
  induction l with
  | nil =>
    intro c a v k h
    simp only [readRemainingLength] at h
    split at h <;> simp_all
  | cons byte rest ih =>
    intro c a v k h
    simp only [readRemainingLength] at h
    split at h
    · simp_all
    · split at h
      · simp only [VarintResult.ok.injEq] at h
        obtain ⟨-, rfl⟩ := h
        exact ⟨by omega, by simp⟩
      · obtain ⟨h1, h2⟩ := ih _ _ _ _ h
        constructor
        · omega
        · simp
          omega

theorem readRemainingLength_take_readMore :
    ∀ (n c acc j : Nat), j < (encodeLengthLoop n).length →
      c + (encodeLengthLoop n).length ≤ 4 →
      readRemainingLength ((encodeLengthLoop n).take j) c acc = .readMore := by
  intro n
  induction n using Nat.strong_induction_on with
  | _ n ih =>
    intro c acc j hj hlen
    rw [encodeLengthLoop] at hj hlen ⊢
    by_cases hdiv : n / 128 = 0
    · rw [dif_pos hdiv] at hj hlen ⊢
      simp at hj
      subst hj
      simp only [List.take_zero, readRemainingLength]
      rw [if_neg (by simp at hlen; omega)]
    · rw [dif_neg hdiv] at hj hlen ⊢
      cases j with
      | zero =>
        simp only [List.take_zero, readRemainingLength]
        rw [if_neg (by simp at hlen; omega)]
      | succ j =>
        simp only [List.take_succ_cons, readRemainingLength]
        rw [if_neg (by simp at hlen; omega)]
        have hd : (n % 128 + 128) % 256 = n % 128 + 128 :=
          Nat.mod_eq_of_lt (by omega)
        simp only [hd, if_neg (by omega : ¬ (n % 128 + 128) < 128)]
        have hpos : 0 < n := Nat.pos_of_ne_zero (fun h0 => hdiv (by simp [h0]))
        exact ih (n / 128) (Nat.div_lt_self hpos (by norm_num)) (c + 1) _ j
          (by simp at hj; omega) (by simp at hlen; omega)

/-- Helper: reading at index `1 + l1.length + k` of `a :: (l1 ++ l2)` lands
at index `k` of `l2`. -/
theorem getD_cons_append (a d : Nat) (l1 l2 : List Nat) (k : Nat) :
    (a :: (l1 ++ l2)).getD (1 + l1.length + k) d = l2.getD k d := by
  have h : 1 + l1.length + k = l1.length + k + 1 := by omega
  rw [h, List.getD_cons_succ, List.getD_append_right _ _ _ _ (Nat.le_add_right _ _)]
  simp

/-- A complete encoded publish followed by arbitrary bytes parses as
`Success`, consuming exactly the encoding and reporting slices equal to the
original topic and payload. -/
theorem parse_encoded (topic payload e rest : List Nat)
    (ht : topic.length < 65536)
    (he : SendPublishMessage topic payload = some e) :
    MqttParseMessage (e ++ rest) =
      .success e.length (e.length - (topic.length + payload.length))
        topic.length (e.length - payload.length) payload.length ∧
    ((e ++ rest).drop (e.length - (topic.length + payload.length))).take
        topic.length = topic ∧
    ((e ++ rest).drop (e.length - payload.length)).take payload.length =
      payload ∧
    (e ++ rest).drop e.length = rest := by
  set t := topic.length with htdef
  set p := payload.length with hpdef
  have hsome : ¬ (2 + t + p > 268435455) := by
    intro hgt
    rw [SendPublishMessage] at he
    rw [EncodeLength, if_pos hgt] at he
    simp at he
  have hds : EncodeLength (2 + t + p) = some (encodeLengthLoop (2 + t + p)) := by
    rw [EncodeLength, if_neg hsome]
  set ds := encodeLengthLoop (2 + t + p) with hdsdef
  have he' : e = 0x30 :: ds ++ [t / 256 % 256, t % 256] ++ topic ++ payload := by
    rw [SendPublishMessage, hds] at he
    simpa using he.symm
  have hlen4 : ds.length ≤ 4 := by
    have h4 : 2 + t + p < 128 ^ (3 + 1) := by norm_num; omega
    simpa using encodeLengthLoop_length_le 3 (2 + t + p) h4
  have hhi : t / 256 % 256 = t / 256 := Nat.mod_eq_of_lt (by omega)
  have helen : e.length = 1 + ds.length + 2 + t + p := by
    subst he'
    simp [htdef, hpdef]
    omega
  -- the buffer in right-nested form
  have hbuf : e ++ rest =
      0x30 :: (ds ++ ([t / 256 % 256, t % 256] ++ (topic ++ (payload ++ rest)))) := by
    subst he'
    simp
  have hvar :
      ReadRemainingLength (ds ++ ([t / 256 % 256, t % 256] ++ (topic ++ (payload ++ rest)))) =
        .ok (2 + t + p) ds.length := by
    have := readRemainingLength_encodeLengthLoop (2 + t + p) 0 0
      ([t / 256 % 256, t % 256] ++ (topic ++ (payload ++ rest)))
      (by rw [← hdsdef]; omega)
    simpa [ReadRemainingLength, hdsdef] using this
  have hlenbuf : (e ++ rest).length = 1 + ds.length + 2 + t + p + rest.length := by
    simp [helen]
  have hb0 : (e ++ rest).getD (1 + ds.length) 0 = t / 256 % 256 := by
    rw [hbuf]
    have h0 : 1 + ds.length = 1 + ds.length + 0 := by omega
    rw [h0, getD_cons_append]
    simp
  have hb1 : (e ++ rest).getD (1 + ds.length + 1) 0 = t % 256 := by
    rw [hbuf, getD_cons_append]
    simp
  have hdrop2 : (e ++ rest).drop (1 + ds.length + 2) = topic ++ (payload ++ rest) := by
    rw [hbuf]
    have h2 : 1 + ds.length + 2 = (2 + ds.length) + 1 := by omega
    rw [h2, List.drop_succ_cons]
    have h3 : 2 + ds.length = ds.length + 2 := by omega
    rw [h3, ← List.drop_drop, List.drop_left]
    rfl
  constructor
  · rw [hbuf, MqttParseMessage]
    rw [hvar]
    simp only
    rw [if_neg (by rw [← hbuf, hlenbuf]; omega)]
    rw [if_neg (by norm_num)]
    rw [← hbuf, hb0, hb1]
    have htopic : (t / 256 % 256 % 256 * 256 + t % 256 % 256) % 65536 = t := by
      omega
    rw [htopic, if_neg (by omega)]
    have hplen : (2 + t + p + 2 ^ 64 - (2 + t)) % 2 ^ 64 = p := by
      have : 2 + t + p + 2 ^ 64 - (2 + t) = p + 2 ^ 64 := by omega
      rw [this]
      simp
      omega
    rw [hplen]
    simp only [ParseResult.success.injEq, and_true, true_and]
    omega
  · refine ⟨?_, ?_, ?_⟩
    · have hoff : e.length - (t + p) = 1 + ds.length + 2 := by omega
      rw [hoff, hdrop2, htdef]
      exact List.take_left topic (payload ++ rest)
    · have hoff : e.length - p = 1 + ds.length + 2 + t := by omega
      rw [hoff, ← List.drop_drop, hdrop2, htdef, List.drop_left, hpdef]
      exact List.take_left payload rest
    · exact List.drop_left e rest

theorem sendPublish_length_pos (topic payload e : List Nat)
    (he : SendPublishMessage topic payload = some e) : 0 < e.length := by
  rw [SendPublishMessage] at he
  cases hE : EncodeLength (2 + topic.length + payload.length) with
  | none => rw [hE] at he; simp at he
  | some ds =>
    rw [hE] at he
    simp only [Option.some.injEq] at he
    subst he
    simp

/-- A strict prefix of an encoded publish parses as `ReadMore`. -/
theorem parse_take_readMore (topic payload e : List Nat)
    (ht : topic.length < 65536)
    (he : SendPublishMessage topic payload = some e) :
    ∀ k, k < e.length → MqttParseMessage (e.take k) = .readMore := by
  set t := topic.length with htdef
  set p := payload.length with hpdef
  have hsome : ¬ (2 + t + p > 268435455) := by
    intro hgt
    rw [SendPublishMessage] at he
    rw [EncodeLength, if_pos hgt] at he
    simp at he
  have hds : EncodeLength (2 + t + p) = some (encodeLengthLoop (2 + t + p)) := by
    rw [EncodeLength, if_neg hsome]
  set ds := encodeLengthLoop (2 + t + p) with hdsdef
  have he' : e = 0x30 :: ds ++ [t / 256 % 256, t % 256] ++ topic ++ payload := by
    rw [SendPublishMessage, hds] at he
    simpa using he.symm
  have hlen4 : ds.length ≤ 4 := by
    have h4 : 2 + t + p < 128 ^ (3 + 1) := by norm_num; omega
    simpa [← hdsdef] using encodeLengthLoop_length_le 3 (2 + t + p) h4
  have helen : e.length = 1 + ds.length + 2 + t + p := by
    rw [he']
    simp [htdef, hpdef]
    omega
  have hbuf : e = 0x30 :: (ds ++ ([t / 256 % 256, t % 256] ++ (topic ++ payload))) := by
    rw [he']
    simp
  set tail0 : List Nat := [t / 256 % 256, t % 256] ++ (topic ++ payload) with htail
  have htail0len : tail0.length = 2 + t + p := by
    simp [htail, htdef, hpdef]
    omega
  intro k hk
  cases k with
  | zero => simp [MqttParseMessage]
  | succ k =>
    rw [hbuf, List.take_succ_cons, MqttParseMessage]
    by_cases hkds : k < ds.length
    · have htake : (ds ++ tail0).take k = ds.take k :=
        List.take_append_of_le_length (le_of_lt hkds)
      rw [htake]
      have hrm : ReadRemainingLength (ds.take k) = .readMore := by
        have := readRemainingLength_take_readMore (2 + t + p) 0 0 k
          (by rw [← hdsdef]; omega) (by rw [← hdsdef]; omega)
        simpa [ReadRemainingLength, hdsdef] using this
      rw [hrm]
    · have hksplit : k = ds.length + (k - ds.length) := by omega
      have htake : (ds ++ tail0).take k = ds ++ tail0.take (k - ds.length) := by
        conv_lhs => rw [hksplit]
        exact List.take_append (k - ds.length)
      rw [htake]
      have hvar : ReadRemainingLength (ds ++ tail0.take (k - ds.length)) =
          .ok (2 + t + p) ds.length := by
        have := readRemainingLength_encodeLengthLoop (2 + t + p) 0 0
          (tail0.take (k - ds.length)) (by rw [← hdsdef]; omega)
        simpa [ReadRemainingLength, hdsdef] using this
      rw [hvar]
      simp only
      rw [if_pos]
      have hklt : k - ds.length < 2 + t + p := by
        rw [helen] at hk
        omega
      have htakelen : (tail0.take (k - ds.length)).length = k - ds.length := by
        rw [List.length_take]
        omega
      simp only [List.length_cons, List.length_append, htakelen]
      omega

/-- On `Skipped` and `Success` the parser consumes at least the two-byte
header and at most the whole buffer. -/
theorem parse_consumed_bounds (buf : List Nat) (c tOff tLen pOff pLen : Nat) :
    (MqttParseMessage buf = .skipped c ∨
      MqttParseMessage buf = .success c tOff tLen pOff pLen) →
    2 ≤ c ∧ c ≤ buf.length := by
  intro h
  match buf with
  | [] => simp [MqttParseMessage] at h
  | byte :: rest =>
    rw [MqttParseMessage] at h
    cases hv : ReadRemainingLength rest with
    | readMore => simp only [hv] at h; simp at h
    | error => simp only [hv] at h; simp at h
    | ok remLen vLen =>
      simp only [hv] at h
      obtain ⟨hlt, hle⟩ := readRemainingLength_ok_bounds rest 0 0 remLen vLen hv
      by_cases h1 : remLen > (byte :: rest).length - (1 + vLen)
      · rw [if_pos h1] at h
        simp at h
      · rw [if_neg h1] at h
        simp only [List.length_cons] at h1 ⊢
        by_cases h2 : (byte % 256) / 16 ≠ 3
        · rw [if_pos h2] at h
          rcases h with h | h
          · simp only [ParseResult.skipped.injEq] at h
            omega
          · simp at h
        · rw [if_neg h2] at h
          by_cases h3 : ((byte :: rest).getD (1 + vLen) 0 % 256 * 256 +
              (byte :: rest).getD (1 + vLen + 1) 0 % 256) % 65536 > remLen
          · rw [if_pos h3] at h
            simp at h
          · rw [if_neg h3] at h
            rcases h with h | h
            · simp at h
            · simp only [ParseResult.success.injEq] at h
              omega

/-- Running the parse loop on a stream of complete encodings followed by a
`ReadMore` remainder extracts exactly the encoded messages, in order, and
leaves the remainder. -/
theorem drainAll_encodeStream :
    ∀ (msgs : List PubMessage) (stream p : List Nat) (fuel : Nat),
      encodeStream msgs = some stream →
      (∀ m ∈ msgs, m.topic.length < 65536) →
      MqttParseMessage p = .readMore →
      stream.length + p.length ≤ fuel →
      drainAll fuel (stream ++ p) =
        (msgs.map (fun m => (m.topic, m.payload)), p) := by
  intro msgs
  induction msgs with
  | nil =>
    intro stream p fuel hs hwf hp hfuel
    simp only [encodeStream, Option.some.injEq] at hs
    subst hs
    simp only [List.nil_append, List.map_nil]
    cases fuel with
    | zero => simp [drainAll]
    | succ fuel => simp [drainAll, hp]
  | cons m ms ih =>
    intro stream p fuel hs hwf hp hfuel
    simp only [encodeStream] at hs
    cases hSe : SendPublishMessage m.topic m.payload with
    | none => rw [hSe] at hs; simp at hs
    | some e =>
      rw [hSe] at hs
      cases hms : encodeStream ms with
      | none => rw [hms] at hs; simp at hs
      | some s' =>
        rw [hms] at hs
        simp only [Option.some.injEq] at hs
        subst hs
        have hepos := sendPublish_length_pos m.topic m.payload e hSe
        have htm : m.topic.length < 65536 := hwf m (by simp)
        obtain ⟨hparse, htop, hpay, hdropc⟩ :=
          parse_encoded m.topic m.payload e (s' ++ p) htm hSe
        cases fuel with
        | zero =>
          simp only [List.length_append] at hfuel
          omega
        | succ fuel =>
          rw [List.append_assoc]
          simp only [drainAll, hparse, htop, hpay, hdropc]
          rw [ih s' p fuel hms (fun x hx => hwf x (by simp [hx])) hp
            (by simp only [List.length_append] at hfuel; omega)]
          simp

/-- Any prefix of an encoded stream splits into a run of whole encoded
messages followed by a strict prefix of the next message (which the parser
answers with `ReadMore`). -/
theorem stream_prefix_decompose :
    ∀ (msgs : List PubMessage) (stream q : List Nat),
      encodeStream msgs = some stream →
      (∀ m ∈ msgs, m.topic.length < 65536) →
      q <+: stream →
      ∃ ms1 ms2 s1 s2 pfx, msgs = ms1 ++ ms2 ∧
        encodeStream ms1 = some s1 ∧ encodeStream ms2 = some s2 ∧
        stream = s1 ++ s2 ∧ q = s1 ++ pfx ∧
        MqttParseMessage pfx = .readMore := by
  intro msgs
  induction msgs with
  | nil =>
    intro stream q hs hwf hq
    simp only [encodeStream, Option.some.injEq] at hs
    subst hs
    rw [List.prefix_nil] at hq
    subst hq
    exact ⟨[], [], [], [], [], rfl, rfl, rfl, rfl, rfl, by simp [MqttParseMessage]⟩
  | cons m ms ih =>
    intro stream q hs hwf hq
    simp only [encodeStream] at hs
    cases hSe : SendPublishMessage m.topic m.payload with
    | none => rw [hSe] at hs; simp at hs
    | some e =>
      rw [hSe] at hs
      cases hms : encodeStream ms with
      | none => rw [hms] at hs; simp at hs
      | some s' =>
        rw [hms] at hs
        simp only [Option.some.injEq] at hs
        subst hs
        have htm : m.topic.length < 65536 := hwf m (by simp)
        by_cases hql : q.length < e.length
        · refine ⟨[], m :: ms, [], e ++ s', q, rfl, rfl, ?_, rfl, rfl, ?_⟩
          · simp [encodeStream, hSe, hms]
          · have hqe : q = e.take q.length := by
              conv_lhs => rw [List.prefix_iff_eq_take.mp hq]
              exact List.take_append_of_le_length (le_of_lt hql)
            rw [hqe]
            exact parse_take_readMore m.topic m.payload e htm hSe q.length hql
        · have hepre : e <+: q := by
            refine List.prefix_of_prefix_length_le (List.prefix_append e s') hq ?_
            omega
          obtain ⟨q', rfl⟩ := hepre
          have hq' : q' <+: s' := (List.prefix_append_right_inj e).mp hq
          obtain ⟨ms1, ms2, s1, s2, pfx, hsplit, hs1, hs2, hstream, hqeq, hpfx⟩ :=
            ih s' q' hms (fun x hx => hwf x (by simp [hx])) hq'
          refine ⟨m :: ms1, ms2, e ++ s1, s2, pfx, by simp [hsplit], ?_,
            hs2, ?_, ?_, hpfx⟩
          · simp [encodeStream, hSe, hs1]
          · rw [hstream, List.append_assoc]
          · rw [hqeq, List.append_assoc]

/-- Feeding the ingress the chunks of a well-formed encoded stream, with
the current leftover of an earlier feed, produces the stream's messages. -/
theorem feedChunks_encodeStream :
    ∀ (chunks : List (List Nat)) (msgs : List PubMessage)
      (stream leftover : List Nat),
      encodeStream msgs = some stream →
      (∀ m ∈ msgs, m.topic.length < 65536) →
      leftover ++ chunks.join = stream →
      MqttParseMessage leftover = .readMore →
      feedChunks chunks leftover = msgs.map (fun m => (m.topic, m.payload)) := by
  intro chunks
  induction chunks with
  | nil =>
    intro msgs stream leftover hs hwf hjoin hleft
    simp only [List.join_nil, List.append_nil] at hjoin
    subst hjoin
    cases msgs with
    | nil => simp [feedChunks]
    | cons m ms =>
      exfalso
      simp only [encodeStream] at hs
      cases hSe : SendPublishMessage m.topic m.payload with
      | none => rw [hSe] at hs; simp at hs
      | some e =>
        rw [hSe] at hs
        cases hms : encodeStream ms with
        | none => rw [hms] at hs; simp at hs
        | some s' =>
          rw [hms] at hs
          simp only [Option.some.injEq] at hs
          obtain ⟨hparse, -, -, -⟩ := parse_encoded m.topic m.payload e s'
            (hwf m (by simp)) hSe
          rw [← hs, hparse] at hleft
          simp at hleft
  | cons c cs ih =>
    intro msgs stream leftover hs hwf hjoin hleft
    have hpre : leftover ++ c <+: stream := by
      refine ⟨cs.join, ?_⟩
      rw [← hjoin]
      simp [List.join]
    obtain ⟨ms1, ms2, s1, s2, pfx, hsplit, hs1, hs2, hstream, hqeq, hpfx⟩ :=
      stream_prefix_decompose msgs stream (leftover ++ c) hs hwf hpre
    subst hsplit
    have hdrain : drainAll (leftover ++ c).length (leftover ++ c) =
        (ms1.map (fun m => (m.topic, m.payload)), pfx) := by
      rw [hqeq]
      exact drainAll_encodeStream ms1 s1 pfx (s1 ++ pfx).length hs1
        (fun x hx => hwf x (by simp [hx])) hpfx (by simp)
    have hs2join : pfx ++ cs.join = s2 := by
      have h1 : (leftover ++ c) ++ cs.join = s1 ++ s2 := by
        rw [← hstream, ← hjoin]
        simp [List.join]
      rw [hqeq, List.append_assoc] at h1
      exact List.append_cancel_left h1
    simp only [feedChunks, hdrain]
    rw [ih ms2 s2 pfx hs2 (fun x hx => hwf x (by simp [hx])) hs2join hpfx]
    simp

/-! ## Namespace tree lemmas (claims C2, C4, C5) -/

theorem MqttfsNode.withBuffer_buffer (n : MqttfsNode) (b : List Nat) :
    (n.withBuffer b).buffer = b := by cases n <;> rfl

theorem MqttfsNode.withBuffer_handles (n : MqttfsNode) (b : List Nat) :
    (n.withBuffer b).handles = n.handles := by cases n <;> rfl

theorem MqttfsNode.withChildren_children (n : MqttfsNode)
    (c : List (List Nat × MqttfsNode)) : (n.withChildren c).children = c := by
  cases n <;> rfl

theorem MqttfsNode.withChildren_self (n : MqttfsNode) :
    n.withChildren n.children = n := by cases n <;> rfl

theorem MqttfsNode.withHandles_handles (n : MqttfsNode)
    (hs : List MqttfsHandle) : (n.withHandles hs).handles = hs := by
  cases n <;> rfl

theorem MqttfsNode.withHandles_buffer (n : MqttfsNode)
    (hs : List MqttfsHandle) : (n.withHandles hs).buffer = n.buffer := by
  cases n <;> rfl

theorem lookupChild_replace_self
    (cs : List (List Nat × MqttfsNode)) (k : List Nat) (v : MqttfsNode)
    (h : lookupChild cs k = some v) : replaceChild cs k v = cs := by
  induction cs with
  | nil => simp [lookupChild] at h
  | cons p rest ih =>
    obtain ⟨key, val⟩ := p
    simp only [lookupChild] at h
    simp only [replaceChild]
    split at h
    · rename_i hk
      simp only [Option.some.injEq] at h
      rw [if_pos hk, h]
    · rename_i hk
      rw [if_neg hk, ih h]

theorem lookupChild_replace
    (cs : List (List Nat × MqttfsNode)) (k : List Nat) (v w : MqttfsNode)
    (h : lookupChild cs k = some v) :
    lookupChild (replaceChild cs k w) k = some w := by
  induction cs with
  | nil => simp [lookupChild] at h
  | cons p rest ih =>
    obtain ⟨key, val⟩ := p
    simp only [lookupChild] at h
    simp only [replaceChild]
    split at h
    · rename_i hk
      rw [if_pos hk]
      simp [lookupChild, hk]
    · rename_i hk
      rw [if_neg hk]
      simp only [lookupChild, if_neg hk]
      exact ih h

theorem replaceChild_append_fresh
    (cs : List (List Nat × MqttfsNode)) (k : List Nat) (v w : MqttfsNode)
    (h : lookupChild cs k = none) :
    replaceChild (cs ++ [(k, v)]) k w = cs ++ [(k, w)] := by
  induction cs with
  | nil => simp [replaceChild]
  | cons p rest ih =>
    obtain ⟨key, val⟩ := p
    simp only [lookupChild] at h
    split at h
    · simp at h
    · rename_i hk
      simp only [List.cons_append, replaceChild, if_neg hk]
      rw [List.append_eq, ih h]

theorem removeChild_append_fresh
    (cs : List (List Nat × MqttfsNode)) (k : List Nat) (v : MqttfsNode)
    (h : lookupChild cs k = none) :
    removeChild (cs ++ [(k, v)]) k = cs := by
  induction cs with
  | nil => simp [removeChild]
  | cons p rest ih =>
    obtain ⟨key, val⟩ := p
    simp only [lookupChild] at h
    split at h
    · simp at h
    · rename_i hk
      simp only [List.cons_append, removeChild, if_neg hk]
      rw [List.append_eq, ih h]

theorem lookupChild_append_fresh
    (cs : List (List Nat × MqttfsNode)) (k : List Nat) (v : MqttfsNode)
    (h : lookupChild cs k = none) :
    lookupChild (cs ++ [(k, v)]) k = some v := by
  induction cs with
  | nil => simp [lookupChild]
  | cons p rest ih =>
    obtain ⟨key, val⟩ := p
    simp only [lookupChild] at h
    split at h
    · simp at h
    · rename_i hk
      simp only [List.cons_append, lookupChild, if_neg hk]
      exact ih h

theorem rest_length_lt (topic : List Nat) (h : topic.isEmpty = false) :
    (match (splitSeg topic).2 with
      | some r => r
      | none => ([] : List Nat)).length < topic.length := by
  cases hs : (splitSeg topic).2 with
  | none =>
    simp only [hs]
    cases topic with
    | nil => simp at h
    | cons c t => simp
  | some r =>
    simp only [hs]
    exact splitSeg_some_length topic r hs

/-- A failed `RecurseStore` leaves the tree exactly as it was: every level
either created nothing, or rolls its fresh child back with
`tdelete`/destroy. -/
theorem recurseStore_fail_eq :
    ∀ (n : Nat) (topic : List Nat), topic.length ≤ n →
      ∀ (oracle : Nat → Bool) (k : Nat) (node : MqttfsNode)
        (payload : List Nat),
      (RecurseStore oracle k node topic payload).1 = false →
      (RecurseStore oracle k node topic payload).2.1 = node := by
  intro n
  induction n with
  | zero =>
    intro topic hlen oracle k node payload hfail
    have htop : topic = [] := by
      cases topic with
      | nil => rfl
      | cons c t => simp at hlen
    subst htop
    rw [RecurseStore] at hfail ⊢
    simp only [List.isEmpty_nil, dif_pos] at hfail ⊢
    split at hfail
    · simp at hfail
    · rename_i horacle
      simp only [horacle]
      split <;> simp_all
  | succ n ih =>
    intro topic hlen oracle k node payload hfail
    rw [RecurseStore] at hfail ⊢
    by_cases hemp : topic.isEmpty
    · rw [dif_pos hemp] at hfail ⊢
      split at hfail
      · simp at hfail
      · rename_i horacle
        simp only [horacle]
        split <;> simp_all
    · rw [dif_neg hemp] at hfail ⊢
      simp only [Bool.not_eq_true] at hemp
      have hrest := rest_length_lt topic (by simpa using hemp)
      cases hlook : lookupChild node.children (splitSeg topic).1 with
      | some child =>
        simp only [hlook] at hfail ⊢
        have hsub := ih _ (by omega) oracle k child payload hfail
        rw [hsub, lookupChild_replace_self _ _ _ hlook,
          MqttfsNode.withChildren_self]
      | none =>
        simp only [hlook] at hfail ⊢
        by_cases h1 : oracle k
        · rw [if_pos h1] at hfail ⊢
          by_cases h2 : oracle (k + 1)
          · rw [if_pos h2] at hfail ⊢
            by_cases h3 :
                (RecurseStore oracle (k + 2) (CreateNode (splitSeg topic).1)
                  (match (splitSeg topic).2 with
                    | some r => r
                    | none => []) payload).1
            · rw [if_pos h3] at hfail
              simp at hfail
            · rw [if_neg h3] at hfail ⊢
              rw [removeChild_append_fresh _ _ _ hlook,
                MqttfsNode.withChildren_self]
          · rw [if_neg h2] at hfail ⊢
            rw [removeChild_append_fresh _ _ _ hlook,
              MqttfsNode.withChildren_self]
        · rw [if_neg h1] at hfail ⊢

/-- A successful `RecurseStore` leaves the stored payload at the topic
path; the stored node keeps the handle list it had before (a freshly
created leaf has no handles). -/
theorem recurseStore_found :
    ∀ (n : Nat) (topic : List Nat), topic.length ≤ n →
      ∀ (oracle : Nat → Bool) (k : Nat) (node : MqttfsNode)
        (payload : List Nat),
      (RecurseStore oracle k node topic payload).1 = true →
      ∃ leaf, findNode (RecurseStore oracle k node topic payload).2.1 topic =
          some leaf ∧ leaf.buffer = payload ∧
        leaf.handles = (match findNode node topic with
          | some l => l.handles
          | none => []) := by
  intro n
  induction n with
  | zero =>
    intro topic hlen oracle k node payload hok
    have htop : topic = [] := by
      cases topic with
      | nil => rfl
      | cons c t => simp at hlen
    subst htop
    rw [RecurseStore] at hok ⊢
    simp only [List.isEmpty_nil, dif_pos] at hok ⊢
    split at hok
    · rename_i horacle
      simp only [horacle]
      refine ⟨node.withBuffer payload, ?_, ?_, ?_⟩
      · rw [findNode]
        simp
      · exact MqttfsNode.withBuffer_buffer node payload
      · rw [findNode]
        simp [MqttfsNode.withBuffer_handles]
    · simp at hok
  | succ n ih =>
    intro topic hlen oracle k node payload hok
    rw [RecurseStore] at hok ⊢
    by_cases hemp : topic.isEmpty
    · rw [dif_pos hemp] at hok ⊢
      have htop : topic = [] := by
        cases topic with
        | nil => rfl
        | cons c t => simp at hemp
      subst htop
      split at hok
      · rename_i horacle
        simp only [horacle]
        refine ⟨node.withBuffer payload, ?_, ?_, ?_⟩
        · rw [findNode]
          simp
        · exact MqttfsNode.withBuffer_buffer node payload
        · rw [findNode]
          simp [MqttfsNode.withBuffer_handles]
      · simp at hok
    · rw [dif_neg hemp] at hok ⊢
      simp only [Bool.not_eq_true] at hemp
      have hrest := rest_length_lt topic (by simpa using hemp)
      cases hlook : lookupChild node.children (splitSeg topic).1 with
      | some child =>
        simp only [hlook] at hok ⊢
        obtain ⟨leaf, hfind, hbuf, hhand⟩ := ih _ (by omega) oracle k child payload hok
        refine ⟨leaf, ?_, hbuf, ?_⟩
        · conv_lhs => rw [findNode]
          rw [if_neg (by simp [hemp] : ¬ (topic.isEmpty = true))]
          simp only [MqttfsNode.withChildren_children]
          rw [lookupChild_replace _ _ _ _ hlook]
          exact hfind
        · rw [hhand]
          conv_rhs => rw [findNode]
          rw [if_neg (by simp [hemp] : ¬ (topic.isEmpty = true))]
          simp only [hlook]
      | none =>
        simp only [hlook] at hok ⊢
        by_cases h1 : oracle k
        · rw [if_pos h1] at hok ⊢
          by_cases h2 : oracle (k + 1)
          · rw [if_pos h2] at hok ⊢
            by_cases h3 :
                (RecurseStore oracle (k + 2) (CreateNode (splitSeg topic).1)
                  (match (splitSeg topic).2 with
                    | some r => r
                    | none => []) payload).1
            · rw [if_pos h3] at hok ⊢
              obtain ⟨leaf, hfind, hbuf, hhand⟩ := ih _ (by omega) oracle (k + 2)
                (CreateNode (splitSeg topic).1) payload h3
              refine ⟨leaf, ?_, hbuf, ?_⟩
              · conv_lhs => rw [findNode]
                rw [if_neg (by simp [hemp] : ¬ (topic.isEmpty = true))]
                simp only [MqttfsNode.withChildren_children]
                rw [lookupChild_append_fresh _ _ _ hlook]
                exact hfind
              · rw [hhand]
                conv_rhs => rw [findNode]
                rw [if_neg (by simp [hemp] : ¬ (topic.isEmpty = true))]
                simp only [hlook]
                cases hf : findNode (CreateNode (splitSeg topic).1)
                    (match (splitSeg topic).2 with
                      | some r => r
                      | none => []) with
                | none => simp
                | some l =>
                  simp only
                  rw [findNode] at hf
                  split at hf
                  · simp only [Option.some.injEq] at hf
                    subst hf
                    rfl
                  · simp [CreateNode, lookupChild] at hf
            · rw [if_neg h3] at hok
              simp at hok
          · rw [if_neg h2] at hok
            simp at hok
        · rw [if_neg h1] at hok
          simp at hok

theorem notifyHandles_spec (hs : List MqttfsHandle) :
    NotifyHandles hs =
      (hs.map (fun h => if h.pollHandle = 0 then h
        else { h with updated := true }),
       (hs.filter (fun h => h.pollHandle ≠ 0)).map (·.pollHandle)) := by
  induction hs with
  | nil => simp [NotifyHandles]
  | cons h rest ih =>
    simp only [NotifyHandles, ih]
    by_cases hp : h.pollHandle = 0
    · simp [hp]
    · simp [hp]

theorem notifyAtPath_spec :
    ∀ (n : Nat) (topic : List Nat), topic.length ≤ n →
      ∀ (node leaf : MqttfsNode), findNode node topic = some leaf →
      (notifyAtPath node topic).2 = (NotifyHandles leaf.handles).2 ∧
      findNode (notifyAtPath node topic).1 topic =
        some (leaf.withHandles (NotifyHandles leaf.handles).1) := by
  intro n
  induction n with
  | zero =>
    intro topic hlen node leaf hfind
    have htop : topic = [] := by
      cases topic with
      | nil => rfl
      | cons c t => simp at hlen
    subst htop
    have hleaf : node = leaf := by simpa [findNode] using hfind
    subst hleaf
    rw [notifyAtPath]
    simp only [List.isEmpty_nil, if_true]
    refine ⟨by trivial, ?_⟩
    rw [findNode]
    simp [MqttfsNode.withHandles_handles]
  | succ n ih =>
    intro topic hlen node leaf hfind
    rw [notifyAtPath]
    rw [findNode] at hfind
    by_cases hemp : topic.isEmpty
    · rw [if_pos hemp] at hfind ⊢
      simp only [Option.some.injEq] at hfind
      subst hfind
      refine ⟨rfl, ?_⟩
      rw [findNode]
      simp [hemp, MqttfsNode.withHandles_handles]
    · rw [if_neg hemp] at hfind ⊢
      simp only [Bool.not_eq_true] at hemp
      have hrest := rest_length_lt topic (by simpa using hemp)
      cases hlook : lookupChild node.children (splitSeg topic).1 with
      | none => simp [hlook] at hfind
      | some child =>
        simp only [hlook] at hfind ⊢
        obtain ⟨hnotes, hfind'⟩ := ih _ (by omega) child leaf hfind
        refine ⟨hnotes, ?_⟩
        conv_lhs => rw [findNode]
        rw [if_neg (by simp [hemp] : ¬ (topic.isEmpty = true))]
        simp only [MqttfsNode.withChildren_children]
        rw [lookupChild_replace _ _ _ _ hlook]
        exact hfind'

theorem recurseStore_total :
    ∀ (n : Nat) (topic : List Nat), topic.length ≤ n →
      ∀ (k : Nat) (node : MqttfsNode) (payload : List Nat),
      (RecurseStore (fun _ => true) k node topic payload).1 = true := by
  intro n
  induction n with
  | zero =>
    intro topic hlen k node payload
    have htop : topic = [] := by
      cases topic with
      | nil => rfl
      | cons c t => simp at hlen
    subst htop
    rw [RecurseStore]
    simp
  | succ n ih =>
    intro topic hlen k node payload
    rw [RecurseStore]
    by_cases hemp : topic.isEmpty
    · rw [dif_pos hemp]
      simp
    · rw [dif_neg hemp]
      simp only [Bool.not_eq_true] at hemp
      have hrest := rest_length_lt topic (by simpa using hemp)
      cases hlook : lookupChild node.children (splitSeg topic).1 with
      | some child =>
        simp only [hlook]
        exact ih _ (by omega) k child payload
      | none =>
        simp only [hlook, if_pos]
        rw [if_pos (ih _ (by omega) (k + 2) (CreateNode (splitSeg topic).1)
          payload)]

/-- C5: whenever `RecurseStore` fails (for any pattern of allocation
failures), every node it created has been destroyed and removed from its
parent again, so the tree after the call is exactly the tree before it. -/
theorem store_failure_rollback (oracle : Nat → Bool) (k : Nat)
    (node : MqttfsNode) (topic payload : List Nat)
    (h : (RecurseStore oracle k node topic payload).1 = false) :
    (RecurseStore oracle k node topic payload).2.1 = node :=
  recurseStore_fail_eq topic.length topic le_rfl oracle k node payload h

/-- C5 witness: a store of topic `a` into an empty root with every
allocation failing fails, and the returned tree is the unchanged root. -/
theorem store_failure_rollback_witness :
    (RecurseStore (fun _ => false) 0 (.mk [] true [] [] []) [97] [5]).1 =
      false ∧
    (RecurseStore (fun _ => false) 0 (.mk [] true [] [] []) [97] [5]).2.1 =
      .mk [] true [] [] [] :=
  ⟨by simp [RecurseStore, splitSeg, lookupChild],
   store_failure_rollback (fun _ => false) 0 (.mk [] true [] [] []) [97] [5]
     (by simp [RecurseStore, splitSeg, lookupChild])⟩

/-- C4 counterexample: descending through the existing *file* node `a`
(payload `[5]`, no children, `IsDirectory = false`) with the publish path
`a/b` does not fail with `NotDirectory` — it succeeds, stores the payload
at `a/b`, and turns `a` into a directory; and a publish whose final
component names the existing *directory* node `d` does not fail with
`IsDirectory` — it succeeds and overwrites that directory node's payload
buffer. -/
theorem store_type_conflicts_succeed :
    (RecurseStore (fun _ => true) 0
      (.mk [] true [] [] [([97], .mk [97] false [5] [] [])])
      [97, 47, 98] [7]).1 = true ∧
    ((findNode (RecurseStore (fun _ => true) 0
      (.mk [] true [] [] [([97], .mk [97] false [5] [] [])])
      [97, 47, 98] [7]).2.1 [97, 47, 98]).map MqttfsNode.buffer) = some [7] ∧
    IsDirectory (.mk [97] false [5] [] []) = false ∧
    ((findNode (RecurseStore (fun _ => true) 0
      (.mk [] true [] [] [([97], .mk [97] false [5] [] [])])
      [97, 47, 98] [7]).2.1 [97]).map IsDirectory) = some true ∧
    (RecurseStore (fun _ => true) 0
      (.mk [] true [] [] [([100], .mk [100] true [] [] [])]) [100] [9]).1 =
      true ∧
    ((findNode (RecurseStore (fun _ => true) 0
      (.mk [] true [] [] [([100], .mk [100] true [] [] [])]) [100] [9]).2.1
      [100]).map MqttfsNode.buffer) = some [9] ∧
    IsDirectory (.mk [100] true [] [] []) = true := by
  refine ⟨?_, ?_, by simp [IsDirectory, MqttfsNode.presentAsDir,
      MqttfsNode.children], ?_, ?_, ?_, by simp [IsDirectory,
      MqttfsNode.presentAsDir]⟩ <;>
    simp [RecurseStore, findNode, splitSeg, lookupChild, replaceChild,
      CreateNode, IsDirectory, MqttfsNode.withChildren, MqttfsNode.withBuffer,
      MqttfsNode.children, MqttfsNode.buffer, MqttfsNode.presentAsDir]

/-- C4 (amended): `Insert-payload` never fails with `NotDirectory` or
`IsDirectory`; allocation failure is its only failure mode (with every
allocation succeeding it always succeeds), and on success the payload is
stored at the path — also when the descent passed through an existing file
node (which thereby becomes a directory) and when the final component named
an existing directory node (whose payload buffer is replaced). -/
theorem insert_payload_no_type_failures :
    (∀ (topic : List Nat) (k : Nat) (node : MqttfsNode) (payload : List Nat),
      (RecurseStore (fun _ => true) k node topic payload).1 = true) ∧
    (∀ (oracle : Nat → Bool) (topic : List Nat) (k : Nat) (node : MqttfsNode)
      (payload : List Nat),
      (RecurseStore oracle k node topic payload).1 = true →
      ∃ leaf, findNode (RecurseStore oracle k node topic payload).2.1 topic =
          some leaf ∧ leaf.buffer = payload) := by
  refine ⟨fun topic k node payload =>
    recurseStore_total topic.length topic le_rfl k node payload,
    fun oracle topic k node payload hok => ?_⟩
  obtain ⟨leaf, hfind, hbuf, -⟩ :=
    recurseStore_found topic.length topic le_rfl oracle k node payload hok
  exact ⟨leaf, hfind, hbuf⟩

/-- C4 amended-claim witness: storing under topic `a` into an empty root
with all allocations succeeding succeeds and leaves payload `[1]` at `a`. -/
theorem insert_payload_no_type_failures_witness :
    (RecurseStore (fun _ => true) 0 (.mk [] true [] [] []) [97] [1]).1 =
      true ∧
    ∃ leaf, findNode (RecurseStore (fun _ => true) 0
        (.mk [] true [] [] []) [97] [1]).2.1 [97] = some leaf ∧
      leaf.buffer = [1] :=
  ⟨insert_payload_no_type_failures.1 [97] 0 (.mk [] true [] [] []) [1],
   insert_payload_no_type_failures.2 (fun _ => true) [97] 0
     (.mk [] true [] [] []) [1]
     (insert_payload_no_type_failures.1 [97] 0 (.mk [] true [] [] []) [1])⟩

/-- C2 counterexample: a publish to file `a` carrying two open handles —
one without a wake token, one with token `7` — leaves the tokenless
handle's `updated` flag `false` (the claim demands `updated = true` on
*every* handle), emits the single notification `7`, and does *not* clear
the stored token: a second publish with no intervening POLL emits token `7`
again (the claim says the token is not reused unless POLL stores a new
one). -/
theorem publish_notify_counterexample :
    ((findNode (MqttfsStore (fun _ => true) 0
        (.mk [] true [] []
          [([97], .mk [97] false [] [⟨false, 0⟩, ⟨false, 7⟩] [])])
        [97] [1]).1 [97]).map MqttfsNode.handles) =
      some [⟨false, 0⟩, ⟨true, 7⟩] ∧
    (MqttfsStore (fun _ => true) 0
        (.mk [] true [] []
          [([97], .mk [97] false [] [⟨false, 0⟩, ⟨false, 7⟩] [])])
        [97] [1]).2.1 = [7] ∧
    (MqttfsStore (fun _ => true) 0
        (MqttfsStore (fun _ => true) 0
          (.mk [] true [] []
            [([97], .mk [97] false [] [⟨false, 0⟩, ⟨false, 7⟩] [])])
          [97] [1]).1 [97] [2]).2.1 = [7] ∧
    ¬ (∀ h ∈ [(⟨false, 0⟩ : MqttfsHandle), ⟨true, 7⟩], h.updated = true) := by
  refine ⟨?_, ?_, ?_, by decide⟩ <;>
    simp [MqttfsStore, RecurseStore, findNode, notifyAtPath, NotifyHandles,
      splitSeg, lookupChild, replaceChild, CreateNode, MqttfsNode.withChildren,
      MqttfsNode.withBuffer, MqttfsNode.withHandles, MqttfsNode.children,
      MqttfsNode.buffer, MqttfsNode.handles]

/-- C2 (amended): when a publish arrives at an existing node, the bridge
sets `updated = true` exactly on the open Handles whose wake token is set
(handles without a token are skipped entirely, their `updated` flag
unchanged), emits exactly one NOTIFY_POLL per such handle, in list order,
carrying its token — and it does **not** clear the token: every handle's
stored token after the publish equals its token before, so the same token
is reused on the next publish even without a new POLL. -/
theorem publish_notify_law (topic payload : List Nat) (oracle : Nat → Bool)
    (k : Nat) (root leaf : MqttfsNode)
    (hfind : findNode root topic = some leaf)
    (hok : (RecurseStore oracle k root topic payload).1 = true) :
    (MqttfsStore oracle k root topic payload).2.1 =
      (leaf.handles.filter (fun h => decide (h.pollHandle ≠ 0))).map
        (·.pollHandle) ∧
    ∃ leaf', findNode (MqttfsStore oracle k root topic payload).1 topic =
        some leaf' ∧
      leaf'.handles = leaf.handles.map
        (fun h => if h.pollHandle = 0 then h
          else { h with updated := true }) ∧
      leaf'.buffer = payload ∧
      leaf'.handles.map (·.pollHandle) = leaf.handles.map (·.pollHandle) := by
  obtain ⟨leaf0, hfind0, hbuf0, hhand0⟩ :=
    recurseStore_found topic.length topic le_rfl oracle k root payload hok
  rw [hfind] at hhand0
  simp only at hhand0
  obtain ⟨hnotes, hfind1⟩ := notifyAtPath_spec topic.length topic le_rfl
    (RecurseStore oracle k root topic payload).2.1 leaf0 hfind0
  simp only [MqttfsStore, hok, if_true]
  constructor
  · rw [hnotes, notifyHandles_spec, hhand0]
  · refine ⟨leaf0.withHandles (NotifyHandles leaf0.handles).1, hfind1, ?_, ?_, ?_⟩
    · rw [MqttfsNode.withHandles_handles, notifyHandles_spec, hhand0]
    · rw [MqttfsNode.withHandles_buffer, hbuf0]
    · rw [MqttfsNode.withHandles_handles, notifyHandles_spec, hhand0]
      simp only [List.map_map]
      refine List.map_congr_left (fun h _ => ?_)
      simp only [Function.comp_apply]
      split <;> rfl

/-- C2 amended-claim witness: the notify law applied to the two-handle
file `a` of the counterexample. -/
theorem publish_notify_law_witness :
    (MqttfsStore (fun _ => true) 0
        (.mk [] true [] []
          [([97], .mk [97] false [] [⟨false, 0⟩, ⟨false, 7⟩] [])])
        [97] [1]).2.1 =
      (([⟨false, 0⟩, ⟨false, 7⟩] : List MqttfsHandle).filter
        (fun h => decide (h.pollHandle ≠ 0))).map (·.pollHandle) ∧
    ∃ leaf', findNode (MqttfsStore (fun _ => true) 0
        (.mk [] true [] []
          [([97], .mk [97] false [] [⟨false, 0⟩, ⟨false, 7⟩] [])])
        [97] [1]).1 [97] = some leaf' ∧
      leaf'.handles = ([⟨false, 0⟩, ⟨false, 7⟩] : List MqttfsHandle).map
        (fun h => if h.pollHandle = 0 then h
          else { h with updated := true }) ∧
      leaf'.buffer = [1] ∧
      leaf'.handles.map (·.pollHandle) =
        ([⟨false, 0⟩, ⟨false, 7⟩] : List MqttfsHandle).map (·.pollHandle) := by
  have h := publish_notify_law [97] [1] (fun _ => true) 0
    (.mk [] true [] [] [([97], .mk [97] false [] [⟨false, 0⟩, ⟨false, 7⟩] [])])
    (.mk [97] false [] [⟨false, 0⟩, ⟨false, 7⟩] [])
    (by simp [findNode, splitSeg, lookupChild])
    (recurseStore_total 3 [97] (by simp) 0 _ [1])
  simpa [MqttfsNode.handles, MqttfsNode.buffer] using h

/-- C6: the ingress parser returns one of exactly four outcomes (the four
constructors of `ParseResult`); on `ReadMore` and `Error` the cursor is
untouched (those constructors carry no advance); on `Skipped` and `Success`
the cursor advances by at least the two-byte header and at most the buffer
length, and on a complete encoded publish it advances past exactly that one
message; consequently feeding the byte stream of any well-formed publish
sequence in arbitrary splits produces the same `(topic, payload)` sequence
as feeding it in one chunk. -/
theorem parser_outcomes_and_split_invariance :
    (∀ (buf : List Nat) (c tOff tLen pOff pLen : Nat),
      MqttParseMessage buf = .skipped c ∨
        MqttParseMessage buf = .success c tOff tLen pOff pLen →
      2 ≤ c ∧ c ≤ buf.length) ∧
    (∀ (topic payload e rest : List Nat), topic.length < 65536 →
      SendPublishMessage topic payload = some e →
      MqttParseMessage (e ++ rest) =
        .success e.length (e.length - (topic.length + payload.length))
          topic.length (e.length - payload.length) payload.length) ∧
    (∀ (msgs : List PubMessage) (stream : List Nat)
      (chunks : List (List Nat)),
      encodeStream msgs = some stream →
      (∀ m ∈ msgs, m.topic.length < 65536) →
      chunks.join = stream →
      feedChunks chunks [] = msgs.map (fun m => (m.topic, m.payload)) ∧
      feedChunks [stream] [] = msgs.map (fun m => (m.topic, m.payload))) := by
  refine ⟨parse_consumed_bounds,
    fun topic payload e rest ht he => (parse_encoded topic payload e rest ht he).1,
    fun msgs stream chunks hs hwf hjoin => ⟨?_, ?_⟩⟩
  · exact feedChunks_encodeStream chunks msgs stream [] hs hwf
      (by simpa using hjoin) (by simp [MqttParseMessage])
  · exact feedChunks_encodeStream [stream] msgs stream [] hs hwf
      (by simp) (by simp [MqttParseMessage])

/-- C6 witness: a `Skipped` CONNACK advances the cursor by its 4 bytes; an
encoded publish of topic `a`, payload `b` followed by a stray byte parses
as `Success` past exactly the 6-byte encoding; and a two-publish stream cut
into five uneven chunks (one of them empty) yields the same two
`(topic, payload)` pairs as the whole stream at once. -/
theorem parser_outcomes_and_split_invariance_witness :
    (2 ≤ 4 ∧ 4 ≤ ([0x20, 0x02, 0x00, 0x00] : List Nat).length) ∧
    MqttParseMessage [48, 4, 0, 1, 97, 98, 9] = .success 6 4 1 5 1 ∧
    (feedChunks [[48], [4, 0, 1, 120], [], [121, 48, 7, 0, 3, 97, 47, 98],
        [1, 2]] [] = [([120], [121]), ([97, 47, 98], [1, 2])] ∧
      feedChunks [[48, 4, 0, 1, 120, 121, 48, 7, 0, 3, 97, 47, 98, 1, 2]] [] =
        [([120], [121]), ([97, 47, 98], [1, 2])]) := by
  refine ⟨?_, ?_, ?_⟩
  · exact parser_outcomes_and_split_invariance.1 [0x20, 0x02, 0x00, 0x00]
      4 0 0 0 0 (Or.inl (by decide))
  · have h := parser_outcomes_and_split_invariance.2.1 [97] [98]
      [48, 4, 0, 1, 97, 98] [9] (by decide)
      (by simp [SendPublishMessage, EncodeLength, encodeLengthLoop])
    simpa using h
  · have h := parser_outcomes_and_split_invariance.2.2
      [⟨[120], [121]⟩, ⟨[97, 47, 98], [1, 2]⟩]
      [48, 4, 0, 1, 120, 121, 48, 7, 0, 3, 97, 47, 98, 1, 2]
      [[48], [4, 0, 1, 120], [], [121, 48, 7, 0, 3, 97, 47, 98], [1, 2]]
      (by simp [encodeStream, SendPublishMessage, EncodeLength, encodeLengthLoop])
      (by decide) (by decide)
    exact ⟨h.1, h.2⟩

/-- C7: the guard in `MqttParseMessage` is `topic_len > remaining_length`
rather than `topic_len + 2 > remaining_length`, so the publish packet
`30 02 00 02` (remaining length 2, declared topic length 2) parses as
`Success`: the topic slice starts at offset 4 — already past the 4
consumed bytes, overlapping the following bytes `AA BB` — and
`payload_len = remaining_length - 2 - topic_len` wraps to `2^64 - 2`
instead of being rejected.  The claim that `Success` implies
`topic_len + 2 ≤ remaining_length` and a wrap-free `payload_len` is
violated by the code. -/
theorem parse_topic_overruns_message :
    MqttParseMessage [0x30, 0x02, 0x00, 0x02, 0xAA, 0xBB] =
      .success 4 4 2 6 (2 ^ 64 - 2) := by decide

/-- C8 witness: the round-trip at `n = 321` with a trailing byte, the
rejection of `268435456`, and the four-continuation-byte error at a
concrete input. -/
theorem varint_roundtrip_witness :
    (∃ ds, EncodeLength 321 = some ds ∧
      ReadRemainingLength (ds ++ [7]) = .ok 321 ds.length) ∧
    EncodeLength 268435456 = none ∧
    ReadRemainingLength [255, 255, 255, 255] = .error :=
  ⟨varint_roundtrip.1 321 [7] (by decide),
   varint_roundtrip.2.1 268435456 (by decide),
   varint_roundtrip.2.2 255 255 255 255 [] (by decide) (by decide) (by decide)
     (by decide)⟩

end Mqttfs
